import Mathlib

/-!
Verification development for the CT-reconstruction notebook (ART vs HHL).

The notebook builds a 4×4 0/1 projection matrix `A4` and measurement
vector `b4` from a 2×2 phantom, solves `A x = b` classically with ART,
and solves a Hermitian surrogate system with a simulated HHL circuit.
All numpy/Qiskit code is shallowly embedded here: real/complex floating
arithmetic becomes exact `ℚ`/`ℝ`/`ℂ` arithmetic, statevectors become
functions from bit assignments to `ℂ`, and gates become functions on
statevectors.
-/

set_option maxHeartbeats 1000000

namespace HHLNotebook

/-! ## ART (Algebraic Reconstruction Technique)

Source cell:
  iters, relax = 10, 1.0
  x_art = np.zeros(4)
  for _ in range(iters):
      for i in range(4):
          ai = A4[i]
          n2 = ai.dot(ai)
          if n2 > 0:
              r = b4[i] - ai.dot(x_art)
              x_art += relax * (r / n2) * ai
-/

/-- Dot product of two vectors (numpy `u.dot(v)`). -/
def dot {n : ℕ} {α : Type} [Field α] (u v : Fin n → α) : α :=
  ∑ i, u i * v i

/-- One ART row update: `if n2 > 0: x += relax * ((b_i - ai.dot x)/n2) * ai`. -/
def artRowStep {m n : ℕ} {α : Type} [LinearOrderedField α]
    (A : Fin m → Fin n → α) (b : Fin m → α) (relax : α) (i : Fin m)
    (x : Fin n → α) : Fin n → α :=
  if 0 < dot (A i) (A i) then
    fun j => x j + relax * ((b i - dot (A i) x) / dot (A i) (A i)) * A i j
  else x

/-- One full ART sweep: `for i in range(m)` in ascending index order. -/
def artSweep {m n : ℕ} {α : Type} [LinearOrderedField α]
    (A : Fin m → Fin n → α) (b : Fin m → α) (relax : α)
    (x : Fin n → α) : Fin n → α :=
  (List.finRange m).foldl (fun y i => artRowStep A b relax i y) x

/-- The ART solver: start from the zero vector and do `iters` full sweeps. -/
def artSolve {m n : ℕ} {α : Type} [LinearOrderedField α]
    (A : Fin m → Fin n → α) (b : Fin m → α) (iters : ℕ) (relax : α) :
    Fin n → α :=
  (artSweep A b relax)^[iters] (fun _ => 0)

/-! Spec-side rendering of the same algorithm, written from the spec's words
("initialize x=0. For each of N full sweeps, for each row i in fixed index
order: compute residual r = b_i − aᵢ·x; if ‖aᵢ‖²>0, update
x ← x + ω·(r/‖aᵢ‖²)·aᵢ; rows with zero norm are skipped (no-op, not an
error)").  It is compared with the source embedding in the C3 theorem. -/

/-- Spec wording of a row update: rows with zero squared norm are skipped
as a no-op, every other row is relaxed. -/
def artRowStepSpec {m n : ℕ} {α : Type} [LinearOrderedField α]
    (A : Fin m → Fin n → α) (b : Fin m → α) (relax : α) (i : Fin m)
    (x : Fin n → α) : Fin n → α :=
  if dot (A i) (A i) = 0 then x
  else fun j => x j + relax * ((b i - dot (A i) x) / dot (A i) (A i)) * A i j

/-- Spec wording of a sweep over all rows in ascending index order. -/
def artSweepSpec {m n : ℕ} {α : Type} [LinearOrderedField α]
    (A : Fin m → Fin n → α) (b : Fin m → α) (relax : α)
    (x : Fin n → α) : Fin n → α :=
  (List.finRange m).foldl (fun y i => artRowStepSpec A b relax i y) x

/-- Spec wording of the solver: N sweeps from the zero vector. -/
def artSolveSpec {m n : ℕ} {α : Type} [LinearOrderedField α]
    (A : Fin m → Fin n → α) (b : Fin m → α) (iters : ℕ) (relax : α) :
    Fin n → α :=
  (artSweepSpec A b relax)^[iters] (fun _ => 0)

/-! ## The concrete linear system of the notebook

Source cell (exact trigonometric values are substituted for the two angles
0° and 90°: cos 0 = 1, sin 0 = 0, cos 90° = 0, sin 90° = 1; the float
values `math.cos(pi/2) ≈ 6.1e-17` differ from 0 by far less than the
`1e-6` hit threshold, so the produced 0/1 entries are identical):
  coords = [(-0.5,-0.5), (0.5,-0.5), (-0.5,0.5), (0.5,0.5)]
  for phi_deg in [0, 90]:
      for det in range(2):
          d = det - 0.5
          hit = float(abs(d - (x*cos(phi) + y*sin(phi))) < 1e-6)
          row.append(hit); val += hit * phantom2.flatten()[pix]
-/

/-- Pixel centre coordinates of the 2×2 grid, row-major. -/
def coords : Fin 4 → ℚ × ℚ :=
  ![(-(1/2), -(1/2)), (1/2, -(1/2)), (-(1/2), 1/2), (1/2, 1/2)]

/-- Exact (cos φ, sin φ) for the two projection angles 0° and 90°. -/
def angleCS : Fin 2 → ℚ × ℚ := ![(1, 0), (0, 1)]

/-- The 2×2 phantom image [[1,2],[3,4]]. -/
def phantom2 : Fin 2 → Fin 2 → ℚ := ![![1, 2], ![3, 4]]

/-- The phantom flattened row-major (numpy `phantom2.flatten()`). -/
def phantomFlat : Fin 4 → ℚ := ![1, 2, 3, 4]

/-- Indicator entry: 1 when the ray at offset `d` passes through the pixel
centre `xy`, tested with the source's `< 1e-6` threshold. -/
def hit (cs : ℚ × ℚ) (d : ℚ) (xy : ℚ × ℚ) : ℚ :=
  if |d - (xy.1 * cs.1 + xy.2 * cs.2)| < 1 / 1000000 then 1 else 0

/-- Projection matrix `A4`: row `r` encodes angle `r/2` and detector
`r % 2` (the source's loop order: angle outer, detector inner), with
ray offset `d = det - 0.5`. -/
def A4 : Fin 4 → Fin 4 → ℚ := fun r p =>
  hit (angleCS ⟨r.val / 2, by have := r.isLt; omega⟩)
    ((r.val % 2 : ℕ) - (1/2 : ℚ)) (coords p)

/-- Measurement vector: `b4[r] = Σ_p hit * phantom.flatten()[p]`. -/
def b4 : Fin 4 → ℚ := fun r => dot (A4 r) phantomFlat

/-- Evaluation of the built projection matrix: the expected 0/1 indicator
matrix (pixels 0,2 on the first vertical ray, and so on). -/
lemma A4_values :
    A4 = ![![1, 0, 1, 0], ![0, 1, 0, 1], ![1, 1, 0, 0], ![0, 0, 1, 1]] := by
  funext r p
  fin_cases r <;> fin_cases p <;> simp [A4, hit, coords, angleCS] <;> norm_num

/-- Evaluation of the built measurement vector: the consistent ray sums of
the phantom. -/
lemma b4_values : b4 = ![4, 6, 3, 7] := by
  funext r
  fin_cases r <;>
    simp [b4, dot, Fin.sum_univ_four, A4_values, phantomFlat] <;> norm_num

lemma finRange_four : List.finRange 4 = [0, 1, 2, 3] := by decide

lemma artSweep_unfold (x : Fin 4 → ℚ) :
    artSweep A4 b4 1 x =
      artRowStep A4 b4 1 3
        (artRowStep A4 b4 1 2 (artRowStep A4 b4 1 1 (artRowStep A4 b4 1 0 x))) := by
  simp [artSweep, finRange_four]

lemma art_step0 : artRowStep A4 b4 1 0 (fun _ => 0) = ![2, 0, 2, 0] := by
  funext j
  fin_cases j <;>
    simp [artRowStep, dot, Fin.sum_univ_four, A4_values, b4_values] <;> norm_num

lemma art_step1 : artRowStep A4 b4 1 1 ![2, 0, 2, 0] = ![2, 3, 2, 3] := by
  funext j
  fin_cases j <;>
    simp [artRowStep, dot, Fin.sum_univ_four, A4_values, b4_values] <;> norm_num

lemma art_step2 : artRowStep A4 b4 1 2 ![2, 3, 2, 3] = ![1, 2, 2, 3] := by
  funext j
  fin_cases j <;>
    simp [artRowStep, dot, Fin.sum_univ_four, A4_values, b4_values] <;> norm_num

lemma art_step3 : artRowStep A4 b4 1 3 ![1, 2, 2, 3] = ![1, 2, 3, 4] := by
  funext j
  fin_cases j <;>
    simp [artRowStep, dot, Fin.sum_univ_four, A4_values, b4_values] <;> norm_num

/-- The very first ART sweep from the zero vector already lands exactly on
the flattened phantom. -/
lemma artSweep_from_zero : artSweep A4 b4 1 (fun _ => 0) = phantomFlat := by
  rw [artSweep_unfold, art_step0, art_step1, art_step2, art_step3]
  funext j; fin_cases j <;> rfl

/-- The flattened phantom is a fixed point of the ART sweep (the system is
consistent). -/
lemma artSweep_fixed : artSweep A4 b4 1 phantomFlat = phantomFlat := by
  rw [artSweep_unfold]
  have h0 : artRowStep A4 b4 1 0 phantomFlat = phantomFlat := by
    funext j
    fin_cases j <;>
      simp [artRowStep, dot, Fin.sum_univ_four, A4_values, b4_values, phantomFlat] <;>
      norm_num
  have h1 : artRowStep A4 b4 1 1 phantomFlat = phantomFlat := by
    funext j
    fin_cases j <;>
      simp [artRowStep, dot, Fin.sum_univ_four, A4_values, b4_values, phantomFlat] <;>
      norm_num
  have h2 : artRowStep A4 b4 1 2 phantomFlat = phantomFlat := by
    funext j
    fin_cases j <;>
      simp [artRowStep, dot, Fin.sum_univ_four, A4_values, b4_values, phantomFlat] <;>
      norm_num
  have h3 : artRowStep A4 b4 1 3 phantomFlat = phantomFlat := by
    funext j
    fin_cases j <;>
      simp [artRowStep, dot, Fin.sum_univ_four, A4_values, b4_values, phantomFlat] <;>
      norm_num
  rw [h0, h1, h2, h3]

/-- After ten sweeps (the notebook's `iters = 10`), the ART iterate equals
the flattened phantom exactly. -/
lemma artSolve_ten : artSolve A4 b4 10 1 = phantomFlat := by
  have key : ∀ k : ℕ, (artSweep A4 b4 1)^[k + 1] (fun _ => 0) = phantomFlat := by
    intro k
    induction k with
    | zero => simpa using artSweep_from_zero
    | succ k ih => rw [Function.iterate_succ_apply', ih, artSweep_fixed]
  simpa [artSolve] using key 9

/-- C1: for the fixed scenario (A built from the 2×2 phantom [[1,2],[3,4]]
at angles 0° and 90°, b the consistent ray sums), the ART solver with
N = 10 sweeps and relaxation 1 starting from the zero vector returns the
flattened phantom values (1,2,3,4) to within 1e-6 in every component
(in exact arithmetic it is exact). -/
theorem art_reconstructs_phantom :
    ∀ j : Fin 4, |artSolve A4 b4 10 1 j - phantomFlat j| < 1 / 1000000 := by
  intro j
  rw [artSolve_ten]
  simp

/-- Row squared norms are sums of squares, hence nonnegative. -/
lemma dot_self_nonneg {n : ℕ} (u : Fin n → ℝ) : 0 ≤ dot u u :=
  Finset.sum_nonneg fun i _ => mul_self_nonneg (u i)

/-- The source's row guard `n2 > 0` and the spec's wording "rows with zero
norm are skipped" choose the same branch on every real row. -/
lemma artRowStep_eq_spec {m n : ℕ} (A : Fin m → Fin n → ℝ) (b : Fin m → ℝ)
    (ω : ℝ) (i : Fin m) (x : Fin n → ℝ) :
    artRowStep A b ω i x = artRowStepSpec A b ω i x := by
  unfold artRowStep artRowStepSpec
  rcases lt_or_eq_of_le (dot_self_nonneg (A i)) with h | h
  · rw [if_pos h, if_neg (by linarith)]
  · rw [if_neg (by rw [← h]; exact lt_irrefl 0), if_pos h.symm]

/-- C3: the ART solver is a pure function of (A, b, N, ω): it starts from
the zero vector, performs exactly N sweeps over the rows in ascending
index order, relaxes every row with positive squared norm by
`x += ω ((b_i - aᵢ·x)/‖aᵢ‖²) aᵢ`, and skips zero-norm rows as a no-op;
it coincides with the solver written from the spec's wording. -/
theorem art_solver_matches_spec :
    ∀ (m n : ℕ) (A : Fin m → Fin n → ℝ) (b : Fin m → ℝ) (N : ℕ) (ω : ℝ),
      1 ≤ N →
      artSolve A b N ω = artSolveSpec A b N ω ∧
      artSolve A b N ω = (artSweep A b ω)^[N] (fun _ => 0) ∧
      (∀ (x : Fin n → ℝ),
        artSweep A b ω x = (List.finRange m).foldl (fun y i => artRowStep A b ω i y) x) ∧
      (∀ (i : Fin m) (x : Fin n → ℝ), dot (A i) (A i) = 0 → artRowStep A b ω i x = x) ∧
      (∀ (i : Fin m) (x : Fin n → ℝ), 0 < dot (A i) (A i) →
        artRowStep A b ω i x =
          fun j => x j + ω * ((b i - dot (A i) x) / dot (A i) (A i)) * A i j) := by
  intro m n A b N ω _
  refine ⟨?_, rfl, fun x => rfl, ?_, ?_⟩
  · have hsweep : artSweep A b ω = artSweepSpec A b ω := by
      funext x
      simp only [artSweep, artSweepSpec, artRowStep_eq_spec]
    simp only [artSolve, artSolveSpec, hsweep]
  · intro i x h
    rw [artRowStep_eq_spec]
    unfold artRowStepSpec
    rw [if_pos h]
  · intro i x h
    unfold artRowStep
    rw [if_pos h]

/-- One-row all-ones system used as witness input for C3. -/
def oneMat : Fin 1 → Fin 1 → ℝ := fun _ _ => 1

/-- One-entry all-ones measurement vector used as witness input for C3. -/
def oneVec : Fin 1 → ℝ := fun _ => 1

/-- Witness for C3 at the concrete one-row system A = (1), b = (1),
N = 1, ω = 1. -/
theorem art_solver_matches_spec_witness :
    artSolve oneMat oneVec 1 1 = artSolveSpec oneMat oneVec 1 1 ∧
      artSolve oneMat oneVec 1 1 = (artSweep oneMat oneVec 1)^[1] (fun _ => 0) ∧
      (∀ (x : Fin 1 → ℝ),
        artSweep oneMat oneVec 1 x =
          (List.finRange 1).foldl (fun y i => artRowStep oneMat oneVec 1 i y) x) ∧
      (∀ (i : Fin 1) (x : Fin 1 → ℝ),
        dot (oneMat i) (oneMat i) = 0 → artRowStep oneMat oneVec 1 i x = x) ∧
      (∀ (i : Fin 1) (x : Fin 1 → ℝ),
        0 < dot (oneMat i) (oneMat i) →
          artRowStep oneMat oneVec 1 i x =
            fun j =>
              x j + 1 * ((oneVec i - dot (oneMat i) x) / dot (oneMat i) (oneMat i)) *
                oneMat i j) :=
  art_solver_matches_spec 1 1 oneMat oneVec 1 1 (le_refl 1)

/-! ## Hermitian system builder (HHL setup)

Source cell:
  A_herm = A4.T @ A4 + np.eye(4)
  b_herm = A4.T @ b4
  b_norm = b_herm / np.linalg.norm(b_herm)
  λ_max = max(np.linalg.eigvals(A_herm).real)
  t0    = 2 * pi / λ_max
-/

/-- Hermitian surrogate matrix `A_h = AᵀA + I`. -/
def Aherm {m n : ℕ} (A : Matrix (Fin m) (Fin n) ℝ) : Matrix (Fin n) (Fin n) ℝ :=
  A.transpose * A + 1

/-- Surrogate right-hand side `b_h = Aᵀ b`. -/
def bherm {m n : ℕ} (A : Matrix (Fin m) (Fin n) ℝ) (b : Fin m → ℝ) : Fin n → ℝ :=
  A.transpose.mulVec b

/-- Euclidean norm of a real vector (numpy `np.linalg.norm`). -/
noncomputable def vnorm {n : ℕ} (v : Fin n → ℝ) : ℝ := Real.sqrt (∑ i, v i ^ 2)

/-- Normalised right-hand side `b_norm = b_herm / np.linalg.norm(b_herm)`:
an unchecked pointwise division in the source, with no error channel. -/
noncomputable def bnorm {m n : ℕ} (A : Matrix (Fin m) (Fin n) ℝ) (b : Fin m → ℝ) :
    Fin n → ℝ :=
  fun i => bherm A b i / vnorm (bherm A b)

/-- Real eigenvalue predicate for a square real matrix. -/
def IsEigenvalue {n : ℕ} (M : Matrix (Fin n) (Fin n) ℝ) (μ : ℝ) : Prop :=
  ∃ v : Fin n → ℝ, v ≠ 0 ∧ M.mulVec v = μ • v

/-- Largest real eigenvalue (the source takes the max of the real parts of
`np.linalg.eigvals(A_herm)`; `A_herm` is symmetric so all its eigenvalues
are real). -/
noncomputable def lambdaMax {n : ℕ} (M : Matrix (Fin n) (Fin n) ℝ) : ℝ :=
  sSup {μ | IsEigenvalue M μ}

/-- Time scale `t0 = 2π / λ_max(A_herm)`. -/
noncomputable def timeScale {m n : ℕ} (A : Matrix (Fin m) (Fin n) ℝ) : ℝ :=
  2 * Real.pi / lambdaMax (Aherm A)

/-- Squared Euclidean pairing of a real vector with itself is positive off
zero. -/
lemma dotProduct_self_pos {n : ℕ} {v : Fin n → ℝ} (hv : v ≠ 0) :
    0 < Matrix.dotProduct v v := by
  rcases lt_or_eq_of_le (Finset.sum_nonneg fun i _ => mul_self_nonneg (v i)) with h | h
  · exact h
  · exact absurd (Matrix.dotProduct_self_eq_zero.mp h.symm) hv

/-- C4: the Hermitian system builder returns `A_h = AᵀA + I`, which is
symmetric and has only strictly positive eigenvalues, returns
`b_h = Aᵀ b`, and sets the time scale to `2π / λ_max(A_h)`. -/
theorem hermitian_builder_ok :
    ∀ (m n : ℕ) (A : Matrix (Fin m) (Fin n) ℝ) (b : Fin m → ℝ),
      (Aherm A).transpose = Aherm A ∧
      (∀ (μ : ℝ) (v : Fin n → ℝ), v ≠ 0 → (Aherm A).mulVec v = μ • v → 0 < μ) ∧
      bherm A b = A.transpose.mulVec b ∧
      timeScale A = 2 * Real.pi / lambdaMax (Aherm A) := by
  intro m n A b
  refine ⟨?_, ?_, rfl, rfl⟩
  · unfold Aherm
    rw [Matrix.transpose_add, Matrix.transpose_mul, Matrix.transpose_transpose,
      Matrix.transpose_one]
  · intro μ v hv hE
    have hdot : Matrix.dotProduct v ((Aherm A).mulVec v) = μ * Matrix.dotProduct v v := by
      rw [hE, Matrix.dotProduct_smul, smul_eq_mul]
    have hsplit : Matrix.dotProduct v ((Aherm A).mulVec v) =
        Matrix.dotProduct (A.mulVec v) (A.mulVec v) + Matrix.dotProduct v v := by
      unfold Aherm
      rw [Matrix.add_mulVec, Matrix.dotProduct_add, Matrix.one_mulVec]
      congr 1
      rw [← Matrix.mulVec_mulVec, Matrix.dotProduct_mulVec, Matrix.vecMul_transpose]
    have hAv : 0 ≤ Matrix.dotProduct (A.mulVec v) (A.mulVec v) :=
      Finset.sum_nonneg fun i _ => mul_self_nonneg _
    have hvv : 0 < Matrix.dotProduct v v := dotProduct_self_pos hv
    nlinarith [hdot, hsplit, hAv, hvv]

/-- The notebook's projection matrix `A4` transported to a real `Matrix`
(its exact 0/1 values were established in `A4_values`); input of the HHL
branch. -/
def A4R : Matrix (Fin 4) (Fin 4) ℝ :=
  Matrix.of ![![1, 0, 1, 0], ![0, 1, 0, 1], ![1, 1, 0, 0], ![0, 0, 1, 1]]

/-- The notebook's measurement vector `b4` transported to `ℝ`
(values established in `b4_values`). -/
def b4R : Fin 4 → ℝ := ![4, 6, 3, 7]

/-- Witness for C4 at the notebook's concrete `A4` (as a real matrix) and
`b4`, checking positivity at the eigenpair `μ = 5`, `v = (1,1,1,1)`. -/
theorem hermitian_builder_ok_witness :
    (Aherm A4R).transpose = Aherm A4R ∧
      (0 : ℝ) < 5 ∧
      bherm A4R b4R = A4R.transpose.mulVec b4R ∧
      timeScale A4R = 2 * Real.pi / lambdaMax (Aherm A4R) := by
  obtain ⟨h1, h2, h3, h4⟩ := hermitian_builder_ok 4 4 A4R b4R
  refine ⟨h1, ?_, h3, h4⟩
  refine h2 5 (fun _ => 1) ?_ ?_
  · intro h
    exact one_ne_zero (congrFun h 0)
  · funext i
    fin_cases i <;>
      simp [Aherm, A4R, Matrix.mulVec, Matrix.dotProduct, Matrix.mul_apply,
        Matrix.transpose_apply, Fin.sum_univ_four, Matrix.one_apply,
        Matrix.vecHead, Matrix.vecTail] <;> norm_num

/-! ## Error channels the spec prescribes

The notebook itself has no error handling at all; these model the spec's
wording for comparison with the total functions embedded from the source.
-/

/-- Error taxonomy prescribed by the spec for the core. -/
inductive SpecError where
| divisionByZero : SpecError
| failedPostselection : SpecError

open Classical in
/-- Normalisation step as worded by the spec: fail with DivisionByZero
when `b_h` is the zero vector instead of dividing silently.  Second
definition following the spec's words, compared with the source
embedding `bnorm`. -/
noncomputable def bnormSpec {m n : ℕ} (A : Matrix (Fin m) (Fin n) ℝ) (b : Fin m → ℝ) :
    Except SpecError (Fin n → ℝ) :=
  if bherm A b = 0 then Except.error SpecError.divisionByZero
  else Except.ok (fun i => bherm A b i / vnorm (bherm A b))

/-- Evaluation helper: with A = 0 the surrogate right-hand side is zero. -/
lemma bherm_zero_matrix : bherm (0 : Matrix (Fin 4) (Fin 4) ℝ) b4R = 0 := by
  unfold bherm
  rw [Matrix.transpose_zero, Matrix.zero_mulVec]

/-- C9 counterexample: at the degenerate input A = 0 (so `b_h = 0`) the
source's normalisation silently returns the all-zero vector — the
embedded function is total, with no error outcome — whereas the
spec-worded builder returns the DivisionByZero error. -/
theorem bnorm_silent_on_degenerate_input :
    bherm (0 : Matrix (Fin 4) (Fin 4) ℝ) b4R = 0 ∧
    bnorm (0 : Matrix (Fin 4) (Fin 4) ℝ) b4R = 0 ∧
    bnormSpec (0 : Matrix (Fin 4) (Fin 4) ℝ) b4R =
      Except.error SpecError.divisionByZero := by
  refine ⟨bherm_zero_matrix, ?_, ?_⟩
  · funext i
    simp [bnorm, bherm_zero_matrix]
  · unfold bnormSpec
    rw [if_pos bherm_zero_matrix]

/-- C9 (amended): for every input with `b_h = Aᵀb = 0` the normalisation
step divides by zero silently and yields the degenerate zero vector
(NaNs in numpy float semantics, zero in the exact embedding); no
DivisionByZero error is surfaced to the caller. -/
theorem bnorm_zero_of_bherm_zero :
    ∀ (m n : ℕ) (A : Matrix (Fin m) (Fin n) ℝ) (b : Fin m → ℝ),
      bherm A b = 0 → bnorm A b = 0 := by
  intro m n A b h
  funext i
  simp [bnorm, h]

/-- Witness for the amended C9 at the concrete degenerate input A = 0,
b = b4. -/
theorem bnorm_zero_of_bherm_zero_witness :
    bnorm (0 : Matrix (Fin 4) (Fin 4) ℝ) b4R = 0 :=
  bnorm_zero_of_bherm_zero 4 4 0 b4R bherm_zero_matrix

/-! ## Postselection and extraction tail

Source cell:
  vec = sys_amps.flatten()
  vec /= np.linalg.norm(vec)
  vec *= (1.0 / vec[0].real)
  x_qhl = vec[[3,1,2,0]].reshape(2,2)
  hhl_recon = np.real(x_qhl)
-/

/-- Euclidean norm of a complex 4-vector (numpy `np.linalg.norm`). -/
noncomputable def cnorm (v : Fin 4 → ℂ) : ℝ :=
  Real.sqrt (∑ i, Complex.normSq (v i))

/-- Normalisation `vec /= np.linalg.norm(vec)` (unchecked division). -/
noncomputable def normVec (v : Fin 4 → ℂ) : Fin 4 → ℂ :=
  fun i => v i / (cnorm v : ℂ)

/-- Rescaling `vec *= (1.0 / vec[0].real)`: multiplication by the real
scalar `1 / Re(vec[0])`. -/
noncomputable def scaleVec (v : Fin 4 → ℂ) : Fin 4 → ℂ :=
  fun i => v i * (1 / (((v 0).re : ℝ) : ℂ))

/-- The amplitude reorder `vec[[3,1,2,0]]`. -/
def reorderPerm : Fin 4 → Fin 4 := ![3, 1, 2, 0]

/-- Tail of the extraction: normalise, rescale, reorder, reshape to 2×2
row-major and take real parts (`hhl_recon = np.real(x_qhl)`). -/
noncomputable def hhlReconOf (v : Fin 4 → ℂ) : Fin 2 → Fin 2 → ℝ := fun i j =>
  (scaleVec (normVec v)
    (reorderPerm ⟨2 * i.val + j.val, by have := i.isLt; have := j.isLt; omega⟩)).re

/-- C10: whenever the normalised postselected vector has a reference
amplitude with nonzero real part, the rescale forces its real part to
exactly 1 while merely scaling (not removing) its imaginary part, and
after the [3,1,2,0] reorder the output pixel `hhl_recon[1,1]` is exactly
1: the reconstruction is pinned to the reference pixel, not to the
phantom's absolute scale. -/
theorem rescale_pins_reference_pixel :
    ∀ v : Fin 4 → ℂ, ((normVec v) 0).re ≠ 0 →
      (scaleVec (normVec v) 0).re = 1 ∧
      (scaleVec (normVec v) 0).im = ((normVec v) 0).im / ((normVec v) 0).re ∧
      hhlReconOf v 1 1 = 1 := by
  intro v hre
  have hcast : (1 / ((((normVec v) 0).re : ℝ) : ℂ)) =
      (((1 / ((normVec v) 0).re : ℝ)) : ℂ) := by
    push_cast
    ring
  have hmain : (scaleVec (normVec v) 0).re = 1 ∧
      (scaleVec (normVec v) 0).im = ((normVec v) 0).im / ((normVec v) 0).re := by
    unfold scaleVec
    rw [hcast]
    constructor
    · simp [Complex.mul_re, Complex.ofReal_re, Complex.ofReal_im]
      field_simp
    · simp [Complex.mul_im, Complex.ofReal_re, Complex.ofReal_im]
      field_simp
  refine ⟨hmain.1, hmain.2, ?_⟩
  have hidx : reorderPerm ⟨2 * (1 : Fin 2).val + (1 : Fin 2).val, by omega⟩ = 0 := rfl
  unfold hhlReconOf
  rw [hidx]
  exact hmain.1

/-- First standard basis vector of `ℂ⁴`, witness input for C10. -/
def e1C : Fin 4 → ℂ := ![1, 0, 0, 0]

/-- Witness for C10 at the concrete vector (1,0,0,0). -/
theorem rescale_pins_reference_pixel_witness :
    (scaleVec (normVec e1C) 0).re = 1 ∧
      (scaleVec (normVec e1C) 0).im = ((normVec e1C) 0).im / ((normVec e1C) 0).re ∧
      hhlReconOf e1C 1 1 = 1 :=
  rescale_pins_reference_pixel e1C (by
    have h : cnorm e1C = 1 := by
      simp [cnorm, e1C, Fin.sum_univ_four]
    have hv : (normVec e1C) 0 = 1 := by
      simp only [normVec, h]
      simp [e1C]
    rw [hv]
    norm_num)

/-! ## Statevector postselection front end

Source cell:
  tensor   = state.data.reshape([2]*8)
  sys_amps = tensor[1].sum(axis=(0,1,2,3,4))
  vec      = sys_amps.flatten()

Qiskit statevectors are little-endian: `Statevector.data` index `i`
carries qubit `k`'s bit as bit `k` of `i`, and the circuit's qubit order
is anc = qubit 0, clk[0..4] = qubits 1..5, sys[0] = qubit 6,
sys[1] = qubit 7.  A row-major numpy reshape to `[2]*8` therefore puts
qubit 7 (sys[1]) on axis 0 and qubit 0 (the ancilla) on axis 7, so
`tensor[1]` fixes sys[1] = 1 and `.sum(axis=(0,1,2,3,4))` marginalises
sys[0], clk[4], clk[3], clk[2], clk[1], leaving an array indexed by
(clk[0], ancilla).  The code's own comment claims the opposite axis
order ("ancilla • clk0–4 • sys0 • sys1"). -/

/-- Eight-qubit statevector: an amplitude for every assignment of bits to
qubits 0..7. -/
def QS8 : Type := (Fin 8 → Fin 2) → ℂ

/-- Bit assignment of the eight qubits (qubit k ↦ bk). -/
def mkAsn (b0 b1 b2 b3 b4 b5 b6 b7 : Fin 2) : Fin 8 → Fin 2 := fun k =>
  if k = 0 then b0 else if k = 1 then b1 else if k = 2 then b2
  else if k = 3 then b3 else if k = 4 then b4 else if k = 5 then b5
  else if k = 6 then b6 else b7

/-- The source's `tensor[1].sum(axis=(0,1,2,3,4))`: fix qubit 7 (sys[1])
at 1, sum over qubits 6,5,4,3,2, and index the result by
(qubit 1, qubit 0) = (clk[0], ancilla). -/
noncomputable def codeSysAmps (ψ : QS8) : Fin 2 → Fin 2 → ℂ := fun b1 b0 =>
  ∑ b6 : Fin 2, ∑ b5 : Fin 2, ∑ b4 : Fin 2, ∑ b3 : Fin 2, ∑ b2 : Fin 2,
    ψ (mkAsn b0 b1 b2 b3 b4 b5 b6 1)

/-- Row-major flattening `vec = sys_amps.flatten()`. -/
noncomputable def codeVec (ψ : QS8) : Fin 4 → ℂ := fun k =>
  codeSysAmps ψ ⟨k.val / 2, by have := k.isLt; omega⟩
    ⟨k.val % 2, by have := k.isLt; omega⟩

/-- Extraction as worded by the spec (second definition, for comparison):
select the subspace where the ancilla (qubit 0) equals 1 and marginalise
the five clock qubits 1..5, leaving the system-register amplitudes
indexed by (sys[1], sys[0]) = (qubit 7, qubit 6). -/
noncomputable def specSysAmps (ψ : QS8) : Fin 2 → Fin 2 → ℂ := fun s1 s0 =>
  ∑ c1 : Fin 2, ∑ c2 : Fin 2, ∑ c3 : Fin 2, ∑ c4 : Fin 2, ∑ c5 : Fin 2,
    ψ (mkAsn 1 c1 c2 c3 c4 c5 s0 s1)

/-- The spec's system vector in qubit-basis order (sys[0] = low bit). -/
noncomputable def specVec (ψ : QS8) : Fin 4 → ℂ := fun k =>
  specSysAmps ψ ⟨k.val / 2, by have := k.isLt; omega⟩
    ⟨k.val % 2, by have := k.isLt; omega⟩

/-- Probe statevector: uniform over the subspace with ancilla (qubit 0)
equal to 1 and sys[1] (qubit 7) equal to 0. -/
def probeState : QS8 := fun b => if b 7 = 0 ∧ b 0 = 1 then 1 else 0

/-- Under the code's selection the probe state is annihilated: every
summand fixes qubit 7 at 1. -/
lemma codeVec_probe_zero : codeVec probeState = 0 := by
  funext k
  show (∑ b6 : Fin 2, ∑ b5 : Fin 2, ∑ b4 : Fin 2, ∑ b3 : Fin 2, ∑ b2 : Fin 2,
    probeState (mkAsn _ _ b2 b3 b4 b5 b6 1)) = 0
  refine Finset.sum_eq_zero fun b6 _ => Finset.sum_eq_zero fun b5 _ =>
    Finset.sum_eq_zero fun b4 _ => Finset.sum_eq_zero fun b3 _ =>
    Finset.sum_eq_zero fun b2 _ => ?_
  simp [probeState, mkAsn]

/-- Under the spec's selection the probe state has full weight on the
system basis state 0. -/
lemma specVec_probe_value : specVec probeState 0 = 32 := by
  show (∑ c1 : Fin 2, ∑ c2 : Fin 2, ∑ c3 : Fin 2, ∑ c4 : Fin 2, ∑ c5 : Fin 2,
    probeState (mkAsn 1 c1 c2 c3 c4 c5 ⟨0, by omega⟩ ⟨0, by omega⟩)) = 32
  have hterm : ∀ c1 c2 c3 c4 c5 : Fin 2,
      probeState (mkAsn 1 c1 c2 c3 c4 c5 ⟨0, by omega⟩ ⟨0, by omega⟩) = 1 := by
    intro c1 c2 c3 c4 c5
    have : (⟨0, by omega⟩ : Fin 2) = 0 := rfl
    simp [probeState, mkAsn, this]
  simp only [hterm]
  simp [Finset.sum_const, Finset.card_univ]
  norm_num

/-- C2 evidence: on the probe state — which lies entirely inside the
ancilla = 1 subspace the claim says is selected — the code's extraction
produces the all-zero vector, because `tensor[1]` actually postselects
sys[1] = 1; the spec-worded extraction returns the full weight 32 at
system basis state 0. -/
theorem extraction_selects_sys1_not_ancilla :
    (∀ k : Fin 4, codeVec probeState k = 0) ∧ specVec probeState 0 = 32 :=
  ⟨fun k => by rw [codeVec_probe_zero]; rfl, specVec_probe_value⟩

open Classical in
/-- Postselection as worded by the spec (second definition, for
comparison): a zero postselected vector surfaces FailedPostselection
instead of being silently normalised. -/
noncomputable def postselectSpec (v : Fin 4 → ℂ) : Except SpecError (Fin 4 → ℂ) :=
  if v = 0 then Except.error SpecError.failedPostselection
  else Except.ok (normVec v)

/-- C8 counterexample: the probe state is a nonzero statevector whose
postselected vector is identically zero, and the code's extraction —
a total function with no failure outcome — silently returns the zero
vector where the spec-worded extraction surfaces FailedPostselection. -/
theorem postselect_returns_silent_zero :
    codeVec probeState = 0 ∧
    normVec (codeVec probeState) = 0 ∧
    postselectSpec (codeVec probeState) =
      Except.error SpecError.failedPostselection := by
  refine ⟨codeVec_probe_zero, ?_, ?_⟩
  · rw [codeVec_probe_zero]
    funext i
    simp [normVec]
  · unfold postselectSpec
    rw [if_pos codeVec_probe_zero]

/-- C8 (amended): whenever the postselected vector is identically zero
the extraction divides by the zero norm and silently returns the zero
vector (NaNs in numpy float semantics); no FailedPostselection outcome
exists in the code. -/
theorem extraction_no_failure_outcome :
    ∀ ψ : QS8, codeVec ψ = 0 → normVec (codeVec ψ) = 0 := by
  intro ψ h
  rw [h]
  funext i
  simp [normVec]

/-- The all-zero statevector, witness input for the amended C8. -/
def zeroState : QS8 := fun _ => 0

/-- Witness for the amended C8 at the all-zero statevector. -/
theorem extraction_no_failure_outcome_witness :
    normVec (codeVec zeroState) = 0 :=
  extraction_no_failure_outcome zeroState (by
    funext k
    show (∑ b6 : Fin 2, ∑ b5 : Fin 2, ∑ b4 : Fin 2, ∑ b3 : Fin 2, ∑ b2 : Fin 2,
      zeroState (mkAsn _ _ b2 b3 b4 b5 b6 1)) = 0
    simp [zeroState])

/-! ## Unitary evolution bank

Source cell:
  U_ops = [
    Operator(expm(1j * A_herm * (2**k) * t0)).to_instruction().control(1)
    for k in range(5)
  ]
-/

/-- Matrix exponential `U_k = exp(i · H · 2^k · t)`
(scipy `expm(1j * A_herm * (2**k) * t0)`). -/
noncomputable def expUnitary (H : Matrix (Fin 4) (Fin 4) ℂ) (t : ℝ) (k : ℕ) :
    Matrix (Fin 4) (Fin 4) ℂ :=
  NormedSpace.exp ℂ ((Complex.I * ((2 : ℂ) ^ k * (t : ℂ))) • H)

/-- Single-control wrapper (Qiskit `.control(1)`): the block matrix
|0⟩⟨0| ⊗ I + |1⟩⟨1| ⊗ U acting on control ⊕ system. -/
noncomputable def ctrlWrap (U : Matrix (Fin 4) (Fin 4) ℂ) :
    Matrix (Fin 4 ⊕ Fin 4) (Fin 4 ⊕ Fin 4) ℂ :=
  Matrix.fromBlocks 1 0 0 U

/-- The evolution bank: exactly K = 5 controlled operators, one per clock
qubit k = 0..4. -/
noncomputable def uOps (H : Matrix (Fin 4) (Fin 4) ℂ) (t : ℝ) :
    Fin 5 → Matrix (Fin 4 ⊕ Fin 4) (Fin 4 ⊕ Fin 4) ℂ :=
  fun k => ctrlWrap (expUnitary H t k.val)

/-- Unitarity survives the single-control wrapper. -/
lemma ctrlWrap_unitary {U : Matrix (Fin 4) (Fin 4) ℂ}
    (hU : U.conjTranspose * U = 1) :
    (ctrlWrap U).conjTranspose * ctrlWrap U = 1 := by
  unfold ctrlWrap
  rw [Matrix.fromBlocks_conjTranspose, Matrix.fromBlocks_multiply]
  simp [hU, Matrix.fromBlocks_one]

/-- Unitarity of the matrix exponential of i times a Hermitian matrix. -/
lemma expUnitary_unitary {H : Matrix (Fin 4) (Fin 4) ℂ}
    (hH : H.conjTranspose = H) (t : ℝ) (k : ℕ) :
    (expUnitary H t k).conjTranspose * expUnitary H t k = 1 := by
  set c : ℂ := Complex.I * ((2 : ℂ) ^ k * (t : ℂ)) with hc
  have hstar : star c = -c := by
    have h2k : star ((2 : ℂ) ^ k) = (2 : ℂ) ^ k := by
      rw [star_pow]
      norm_num
    have ht : star ((t : ℝ) : ℂ) = ((t : ℝ) : ℂ) := Complex.conj_ofReal t
    rw [hc, star_mul, star_mul, h2k, ht, Complex.star_def, Complex.conj_I]
    ring
  have h1 : (c • H).conjTranspose = -(c • H) := by
    rw [Matrix.conjTranspose_smul, hH, hstar, neg_smul]
  have hu : expUnitary H t k = NormedSpace.exp ℂ (c • H) := by
    rw [expUnitary, hc]
  have h2 : (expUnitary H t k).conjTranspose = NormedSpace.exp ℂ (-(c • H)) := by
    rw [hu, ← Matrix.exp_conjTranspose, h1]
  have hcomm : Commute (-(c • H)) (c • H) := (Commute.refl (c • H)).neg_left
  rw [h2, hu, ← Matrix.exp_add_of_commute _ _ _ hcomm, neg_add_cancel,
    NormedSpace.exp_zero]

/-- C5: for every Hermitian H and time scale t, the evolution bank holds
exactly the five single-controlled operators `U_k = exp(i·H·2^k·t)` for
k = 0..4, and each `U_k` (and its controlled wrapper) satisfies
`U_k† · U_k = 1`. -/
theorem unitary_evolution_bank_ok :
    ∀ (H : Matrix (Fin 4) (Fin 4) ℂ), H.conjTranspose = H → ∀ (t : ℝ) (k : Fin 5),
      uOps H t k = ctrlWrap (expUnitary H t k.val) ∧
      (expUnitary H t k.val).conjTranspose * expUnitary H t k.val = 1 ∧
      (uOps H t k).conjTranspose * uOps H t k = 1 := by
  intro H hH t k
  refine ⟨rfl, expUnitary_unitary hH t k.val, ?_⟩
  exact ctrlWrap_unitary (expUnitary_unitary hH t k.val)

/-- Witness for C5 at the concrete Hermitian input H = I, t = 1, k = 0. -/
theorem unitary_evolution_bank_ok_witness :
    uOps 1 1 0 = ctrlWrap (expUnitary 1 1 (0 : Fin 5).val) ∧
      (expUnitary 1 1 (0 : Fin 5).val).conjTranspose *
        expUnitary 1 1 (0 : Fin 5).val = 1 ∧
      (uOps 1 1 0).conjTranspose * uOps 1 1 0 = 1 :=
  unitary_evolution_bank_ok 1 Matrix.conjTranspose_one 1 0

/-! ## QFT and inverse QFT on the clock register

Source cell (K = 5 clock qubits; `cp(pi/2**(k-j), clk[k], clk[j])`):
  def qft(circ):
      for i in range(5 // 2): circ.swap(clk[i], clk[4 - i])
      for j in range(5):
          circ.h(clk[j])
          for k in range(j+1, 5): circ.cp(pi / 2**(k-j), clk[k], clk[j])
  def qft_dg(circ):
      for j in reversed(range(5)):
          for k in reversed(range(j+1, 5)): circ.cp(-pi / 2**(k-j), clk[k], clk[j])
          circ.h(clk[j])
      for i in range(5 // 2): circ.swap(clk[i], clk[4 - i])

States of the clock register are amplitude functions on bit assignments;
each gate is the standard unitary action written pointwise.  The gate
lists below are the K = 5 loops unrolled in the exact emission order of
the source. -/

/-- State of the 5 clock qubits: an amplitude for each bit assignment. -/
def CState : Type := (Fin 5 → Fin 2) → ℂ

/-- Gates emitted by the source's `qft`/`qft_dg`: Hadamard, controlled
phase (angle, control, target) and swap. -/
inductive CGate where
| had : Fin 5 → CGate
| cphase : ℝ → Fin 5 → Fin 5 → CGate
| swapg : Fin 5 → Fin 5 → CGate

/-- Action of one gate on a clock-register state: Hadamard mixes the two
branches of the target bit with weight 1/√2 and sign (−1)^bit,
controlled phase multiplies by `exp(iθ)` exactly when control and target
bits are both 1, and swap exchanges two bit positions. -/
noncomputable def capply : CGate → CState → CState
| CGate.had q, ψ => fun b =>
    (ψ (Function.update b q 0) +
      (if b q = 0 then 1 else -1) * ψ (Function.update b q 1)) / ((Real.sqrt 2 : ℝ) : ℂ)
| CGate.cphase θ c t, ψ => fun b =>
    if b c = 1 ∧ b t = 1 then Complex.exp ((θ : ℂ) * Complex.I) * ψ b else ψ b
| CGate.swapg a c, ψ => fun b =>
    ψ (fun i => if i = a then b c else if i = c then b a else b i)

lemma fin_two_cases : ∀ v : Fin 2, v = 0 ∨ v = 1 := by decide

/-- Hadamard is an involution. -/
lemma capply_had_had (q : Fin 5) (ψ : CState) :
    capply (CGate.had q) (capply (CGate.had q) ψ) = ψ := by
  funext b
  have hs2 : ((Real.sqrt 2 : ℝ) : ℂ) * ((Real.sqrt 2 : ℝ) : ℂ) = 2 := by
    rw [← Complex.ofReal_mul, Real.mul_self_sqrt (by norm_num : (0:ℝ) ≤ 2)]
    norm_num
  have hne : ((Real.sqrt 2 : ℝ) : ℂ) ≠ 0 := by
    rw [Complex.ofReal_ne_zero]
    exact ne_of_gt (Real.sqrt_pos.mpr (by norm_num))
  simp only [capply, Function.update_idem, Function.update_same]
  norm_num
  rcases fin_two_cases (b q) with h | h
  · rw [h]
    rw [show Function.update b q 0 = b from by rw [← h]; exact Function.update_eq_self q b]
    norm_num
    field_simp
    rw [hs2]; ring
  · rw [h]
    rw [show Function.update b q 1 = b from by rw [← h]; exact Function.update_eq_self q b]
    norm_num
    field_simp
    rw [hs2]; ring

/-- A controlled phase of the negated angle undoes a controlled phase. -/
lemma capply_cphase_cancel (θ : ℝ) (c t : Fin 5) (ψ : CState) :
    capply (CGate.cphase (-θ) c t) (capply (CGate.cphase θ c t) ψ) = ψ := by
  funext b
  by_cases h : b c = 1 ∧ b t = 1
  · simp only [capply, if_pos h]
    rw [← mul_assoc, ← Complex.exp_add]
    have hz : ((-θ : ℝ) : ℂ) * Complex.I + (θ : ℂ) * Complex.I = 0 := by
      push_cast
      ring
    rw [hz, Complex.exp_zero, one_mul]
  · simp only [capply, if_neg h]

/-- Swap is an involution. -/
lemma capply_swapg_cancel (a c : Fin 5) (ψ : CState) :
    capply (CGate.swapg a c) (capply (CGate.swapg a c) ψ) = ψ := by
  funext b
  simp only [capply]
  congr 1
  funext i
  by_cases h1 : i = a
  · subst h1
    by_cases h2 : c = i
    · simp [h2]
    · simp [h2, if_neg h2]
  · by_cases h2 : i = c
    · subst h2
      simp [h1]
    · simp [h1, h2]

/-- Sequential application of a gate list (first gate applied first, like
the circuit emission order). -/
noncomputable def applyGates (gs : List CGate) (ψ : CState) : CState :=
  gs.foldl (fun φ g => capply g φ) ψ

/-- The source's `qft` gate sequence for K = 5, in emission order:
bit-reversal swaps first, then for each qubit j ascending a Hadamard
followed by controlled phases of angle π/2^(k−j) from every higher
qubit k. -/
noncomputable def qftGates : List CGate :=
  [CGate.swapg 0 4, CGate.swapg 1 3,
   CGate.had 0,
   CGate.cphase (Real.pi / 2 ^ 1) 1 0, CGate.cphase (Real.pi / 2 ^ 2) 2 0,
   CGate.cphase (Real.pi / 2 ^ 3) 3 0, CGate.cphase (Real.pi / 2 ^ 4) 4 0,
   CGate.had 1,
   CGate.cphase (Real.pi / 2 ^ 1) 2 1, CGate.cphase (Real.pi / 2 ^ 2) 3 1,
   CGate.cphase (Real.pi / 2 ^ 3) 4 1,
   CGate.had 2,
   CGate.cphase (Real.pi / 2 ^ 1) 3 2, CGate.cphase (Real.pi / 2 ^ 2) 4 2,
   CGate.had 3,
   CGate.cphase (Real.pi / 2 ^ 1) 4 3,
   CGate.had 4]

/-- The source's `qft_dg` gate sequence for K = 5, in emission order:
gate order reversed, phase angles negated, bit-reversal swaps at the
end. -/
noncomputable def qftDgGates : List CGate :=
  [CGate.had 4,
   CGate.cphase (-(Real.pi / 2 ^ 1)) 4 3,
   CGate.had 3,
   CGate.cphase (-(Real.pi / 2 ^ 2)) 4 2, CGate.cphase (-(Real.pi / 2 ^ 1)) 3 2,
   CGate.had 2,
   CGate.cphase (-(Real.pi / 2 ^ 3)) 4 1, CGate.cphase (-(Real.pi / 2 ^ 2)) 3 1,
   CGate.cphase (-(Real.pi / 2 ^ 1)) 2 1,
   CGate.had 1,
   CGate.cphase (-(Real.pi / 2 ^ 4)) 4 0, CGate.cphase (-(Real.pi / 2 ^ 3)) 3 0,
   CGate.cphase (-(Real.pi / 2 ^ 2)) 2 0, CGate.cphase (-(Real.pi / 2 ^ 1)) 1 0,
   CGate.had 0,
   CGate.swapg 0 4, CGate.swapg 1 3]

/-- The two disjoint bit-reversal swaps cancel their own repetition. -/
lemma swaps_cancel (ψ : CState) :
    capply (CGate.swapg 1 3) (capply (CGate.swapg 0 4)
      (capply (CGate.swapg 1 3) (capply (CGate.swapg 0 4) ψ))) = ψ := by
  funext b
  simp only [capply]
  congr 1
  funext i
  fin_cases i <;> simp

/-- Total squared norm of a clock-register state. -/
noncomputable def cnormSq (ψ : CState) : ℝ := ∑ b, Complex.normSq (ψ b)

/-- C6: applying the source's QFT gate sequence and then its inverse-QFT
gate sequence returns every normalised clock-register state unchanged
(exactly, in the exact embedding). -/
theorem qft_roundtrip : ∀ ψ : CState, cnormSq ψ = 1 →
    applyGates qftDgGates (applyGates qftGates ψ) = ψ := by
  intro ψ _
  simp only [applyGates, qftGates, qftDgGates, List.foldl_cons, List.foldl_nil]
  simp only [capply_had_had, capply_cphase_cancel]
  exact swaps_cancel ψ

/-- The all-zeros clock basis state |00000⟩. -/
def basisZero : CState := fun b => if b = (fun _ => 0) then 1 else 0

/-- The basis state is normalised. -/
lemma cnormSq_basisZero : cnormSq basisZero = 1 := by
  unfold cnormSq basisZero
  have h : ∀ b : Fin 5 → Fin 2,
      Complex.normSq (if b = (fun _ => 0) then (1:ℂ) else 0) =
        if b = (fun _ => 0) then (1:ℝ) else 0 := by
    intro b
    by_cases hb : b = (fun _ => 0) <;> simp [hb]
  rw [Finset.sum_congr rfl (fun b _ => h b)]
  simp [Finset.sum_ite_eq']

/-- Witness for C6 at the normalised basis state |00000⟩. -/
theorem qft_roundtrip_witness :
    applyGates qftDgGates (applyGates qftGates basisZero) = basisZero :=
  qft_roundtrip basisZero cnormSq_basisZero

/-! ## Eigenvalue-inversion stage

Source cell (inside `hhl`):
  phase_to_lambda = {0b00110:1, 0b10011:3, 0b00000:5}
  for pat, lam in phase_to_lambda.items():
      theta = 2 * asin(1/lam)
      bits  = format(pat, '05b')
      for i, bit in enumerate(reversed(bits)):
          if bit == '0': circ.x(clk[i])
      circ.mcry(theta, clk, anc[0])
      for i, bit in enumerate(reversed(bits)):
          if bit == '0': circ.x(clk[i])

`reversed(format(pat,'05b'))[i]` is bit i of `pat` (least significant
first), so clk[i] receives an X exactly when `pat.testBit i` is false.
States carry the ancilla bit, the clock assignment and the system
assignment; `mcry` applies the Y-rotation to the ancilla controlled on
all five clock bits being 1. -/

/-- State of the full HHL register: amplitude per (ancilla bit, clock
assignment, system assignment). -/
def HState : Type := Fin 2 → (Fin 5 → Fin 2) → (Fin 2 → Fin 2) → ℂ

/-- Bit flip on a single qubit value. -/
def flipb : Fin 2 → Fin 2 := fun v => if v = 0 then 1 else 0

/-- X gate on clock qubit `i`. -/
def xClk (i : Fin 5) (ψ : HState) : HState := fun a c s =>
  ψ a (Function.update c i (flipb (c i))) s

/-- Multi-controlled Ry(θ) on the ancilla, controlled on all five clock
qubits being 1 (Qiskit `mcry(theta, clk, anc[0])`); Ry(θ) mixes the
ancilla amplitudes with cos(θ/2) and sin(θ/2). -/
noncomputable def mcryAnc (θ : ℝ) (ψ : HState) : HState := fun a c s =>
  if ∀ i, c i = 1 then
    if a = 0 then
      ((Real.cos (θ / 2) : ℝ) : ℂ) * ψ 0 c s - ((Real.sin (θ / 2) : ℝ) : ℂ) * ψ 1 c s
    else
      ((Real.sin (θ / 2) : ℝ) : ℂ) * ψ 0 c s + ((Real.cos (θ / 2) : ℝ) : ℂ) * ψ 1 c s
  else ψ a c s

/-- The X-gate loop of one table entry: X on every clock qubit whose
pattern bit is 0, in ascending index order. -/
def applyXs (p : ℕ) (ψ : HState) : HState :=
  (List.finRange 5).foldl (fun φ i => if p.testBit i.val then φ else xClk i φ) ψ

/-- Pointwise effect of the X-gate loop on a clock assignment. -/
def xform (p : ℕ) (c : Fin 5 → Fin 2) : Fin 5 → Fin 2 := fun i =>
  if p.testBit i.val then c i else flipb (c i)

lemma applyXs_apply (p : ℕ) (ψ : HState) (a : Fin 2) (c : Fin 5 → Fin 2)
    (s : Fin 2 → Fin 2) :
    applyXs p ψ a c s = ψ a (xform p c) s := by
  have hfr : List.finRange 5 = [0, 1, 2, 3, 4] := by decide
  have v0 : ((0 : Fin 5)).val = 0 := rfl
  have v1 : ((1 : Fin 5)).val = 1 := rfl
  have v2 : ((2 : Fin 5)).val = 2 := rfl
  have v3 : ((3 : Fin 5)).val = 3 := rfl
  have v4 : ((4 : Fin 5)).val = 4 := rfl
  simp only [applyXs, hfr, List.foldl_cons, List.foldl_nil, v0, v1, v2, v3, v4]
  by_cases h0 : p.testBit 0 <;> by_cases h1 : p.testBit 1 <;>
    by_cases h2 : p.testBit 2 <;> by_cases h3 : p.testBit 3 <;>
    by_cases h4 : p.testBit 4 <;>
    simp only [h0, h1, h2, h3, h4, if_true, if_false, xClk] <;>
    exact congrFun (congrArg (ψ a)
      (by funext i; fin_cases i <;>
        simp [xform, h0, h1, h2, h3, h4, Function.update, flipb])) s

/-- One table entry: X-conjugated multi-controlled Ry with
θ = 2·arcsin(1/λ). -/
noncomputable def einvEntry (p : ℕ) (lam : ℝ) (ψ : HState) : HState :=
  applyXs p (mcryAnc (2 * Real.arcsin (1 / lam)) (applyXs p ψ))

/-- Clock assignment encoded by a bit pattern, least significant bit on
clk[0] (matching `reversed(format(pat,'05b'))`). -/
def patFn (p : ℕ) : Fin 5 → Fin 2 := fun i => if p.testBit i.val then 1 else 0

lemma flipb_flipb : ∀ v : Fin 2, flipb (flipb v) = v := by decide

lemma xform_xform (p : ℕ) (c : Fin 5 → Fin 2) : xform p (xform p c) = c := by
  funext i
  unfold xform
  by_cases hb : p.testBit i.val <;> simp [hb, flipb_flipb]

/-- The X conjugation turns "clock equals the pattern" into "all clock
qubits are 1". -/
lemma xform_allones_iff (p : ℕ) (c : Fin 5 → Fin 2) :
    (∀ i, xform p c i = 1) ↔ c = patFn p := by
  have hpoint : ∀ (t : Bool) (v : Fin 2),
      ((if t then v else flipb v) = 1) ↔ (v = if t then 1 else 0) := by decide
  constructor
  · intro h
    funext i
    have hi := h i
    unfold xform at hi
    rw [hpoint] at hi
    exact hi
  · intro h
    intro i
    rw [h]
    unfold xform patFn
    by_cases hb : p.testBit i.val <;> simp [hb, flipb]

/-- Effect of one table entry on any basis amplitude: the Ry(θ) mix
exactly on the pattern's clock value, identity elsewhere. -/
lemma einvEntry_apply (p : ℕ) (lam : ℝ) (ψ : HState) (a : Fin 2)
    (c : Fin 5 → Fin 2) (s : Fin 2 → Fin 2) :
    einvEntry p lam ψ a c s =
      if c = patFn p then
        (if a = 0 then
          ((Real.cos (2 * Real.arcsin (1 / lam) / 2) : ℝ) : ℂ) * ψ 0 c s -
            ((Real.sin (2 * Real.arcsin (1 / lam) / 2) : ℝ) : ℂ) * ψ 1 c s
        else
          ((Real.sin (2 * Real.arcsin (1 / lam) / 2) : ℝ) : ℂ) * ψ 0 c s +
            ((Real.cos (2 * Real.arcsin (1 / lam) / 2) : ℝ) : ℂ) * ψ 1 c s)
      else ψ a c s := by
  unfold einvEntry
  rw [applyXs_apply]
  unfold mcryAnc
  by_cases hc : c = patFn p
  · rw [if_pos hc, if_pos ((xform_allones_iff p c).mpr hc)]
    by_cases ha : a = 0
    · rw [if_pos ha, if_pos ha, applyXs_apply, applyXs_apply, xform_xform]
    · rw [if_neg ha, if_neg ha, applyXs_apply, applyXs_apply, xform_xform]
  · rw [if_neg hc, if_neg (fun hall => hc ((xform_allones_iff p c).mp hall)),
      applyXs_apply, xform_xform]

/-- The phase-to-eigenvalue calibration table, in the source's insertion
order: {0b00110: 1, 0b10011: 3, 0b00000: 5}. -/
noncomputable def phaseTable : List (ℕ × ℝ) := [(6, 1), (19, 3), (0, 5)]

/-- The whole eigenvalue-inversion stage: the three entries applied in
table order. -/
noncomputable def einvStage (ψ : HState) : HState :=
  phaseTable.foldl (fun φ e => einvEntry e.1 e.2 φ) ψ

lemma einvStage_unfold (ψ : HState) :
    einvStage ψ = einvEntry 0 5 (einvEntry 19 3 (einvEntry 6 1 ψ)) := rfl

/-- C7: on any register state whose ancilla is still |0⟩, the
eigenvalue-inversion stage writes amplitude (1/λ)·ψ₀ onto the ancilla=1
component exactly on basis states whose clock register equals a table
pattern (λ being that pattern's eigenvalue), and leaves the ancilla=1
amplitude unchanged (zero) on every clock pattern absent from the
table. -/
theorem eigenvalue_inversion_stage :
    ∀ ψ : HState, (∀ c s, ψ 1 c s = 0) →
      (∀ s, einvStage ψ 1 (patFn 6) s = (((1 : ℝ) / 1 : ℝ) : ℂ) * ψ 0 (patFn 6) s) ∧
      (∀ s, einvStage ψ 1 (patFn 19) s = (((1 : ℝ) / 3 : ℝ) : ℂ) * ψ 0 (patFn 19) s) ∧
      (∀ s, einvStage ψ 1 (patFn 0) s = (((1 : ℝ) / 5 : ℝ) : ℂ) * ψ 0 (patFn 0) s) ∧
      (∀ c s, c ≠ patFn 6 → c ≠ patFn 19 → c ≠ patFn 0 →
        einvStage ψ 1 c s = ψ 1 c s) := by
  intro ψ hanc
  have hsin : ∀ lam : ℝ, -1 ≤ 1 / lam → 1 / lam ≤ 1 →
      Real.sin (2 * Real.arcsin (1 / lam) / 2) = 1 / lam := by
    intro lam hl hu
    rw [show (2 * Real.arcsin (1 / lam) / 2) = Real.arcsin (1 / lam) from by ring]
    exact Real.sin_arcsin hl hu
  refine ⟨?_, ?_, ?_, ?_⟩
  · intro s
    rw [einvStage_unfold, einvEntry_apply, if_neg (by decide),
      einvEntry_apply, if_neg (by decide),
      einvEntry_apply, if_pos rfl, if_neg (by decide), hanc]
    rw [hsin 1 (by norm_num) (by norm_num)]
    ring
  · intro s
    rw [einvStage_unfold, einvEntry_apply, if_neg (by decide),
      einvEntry_apply, if_pos rfl, if_neg (by decide),
      einvEntry_apply, if_neg (by decide), einvEntry_apply, if_neg (by decide), hanc]
    rw [hsin 3 (by norm_num) (by norm_num)]
    ring
  · intro s
    rw [einvStage_unfold, einvEntry_apply, if_pos rfl, if_neg (by decide),
      einvEntry_apply, if_neg (by decide), einvEntry_apply, if_neg (by decide),
      einvEntry_apply, if_neg (by decide), einvEntry_apply, if_neg (by decide), hanc]
    rw [hsin 5 (by norm_num) (by norm_num)]
    ring
  · intro c s h6 h19 h0
    rw [einvStage_unfold, einvEntry_apply, if_neg h0,
      einvEntry_apply, if_neg h19, einvEntry_apply, if_neg h6]

/-- Uniform ancilla-zero state, witness input for C7. -/
def ancZeroUniform : HState := fun a _ _ => if a = 0 then 1 else 0

/-- Witness for C7 at the uniform ancilla-zero state. -/
theorem eigenvalue_inversion_stage_witness :
    (∀ s, einvStage ancZeroUniform 1 (patFn 6) s =
        (((1 : ℝ) / 1 : ℝ) : ℂ) * ancZeroUniform 0 (patFn 6) s) ∧
      (∀ s, einvStage ancZeroUniform 1 (patFn 19) s =
        (((1 : ℝ) / 3 : ℝ) : ℂ) * ancZeroUniform 0 (patFn 19) s) ∧
      (∀ s, einvStage ancZeroUniform 1 (patFn 0) s =
        (((1 : ℝ) / 5 : ℝ) : ℂ) * ancZeroUniform 0 (patFn 0) s) ∧
      (∀ c s, c ≠ patFn 6 → c ≠ patFn 19 → c ≠ patFn 0 →
        einvStage ancZeroUniform 1 c s = ancZeroUniform 1 c s) :=
  eigenvalue_inversion_stage ancZeroUniform (fun c s => by simp [ancZeroUniform])

end HHLNotebook
